import Mathlib

/-!
# F1Dashboard — verification of the data-derivation layer

Shallow embedding of the analytics functions of `utils.py` and `plots.py`
(corner segmentation, comparative analytics, strategy reconstruction,
historical aggregation, multi-factor merge, lap-time conversion) together
with proofs and refutations of the specification's claims about them.

Conventions of the embedding:
* pandas DataFrames become lists of structures / key-value pairs;
* Python floats become `ℚ` (the claims under study are insensitive to
  floating-point rounding); `round(x, 2)` becomes `round2`;
* a Python exception (`ZeroDivisionError`, `max()` of an empty sequence)
  becomes `Except.error ()`;
* external data sources (telemetry, circuit geometry, CSV snapshots,
  `pycountry` / team-color lookups) become explicit arguments.
-/

/-- One telemetry sample of `lap.get_car_data().add_distance()`:
cumulative `Distance` along the lap and instantaneous `Speed`. -/
structure Tick where
  dist : ℚ
  speed : ℚ
deriving DecidableEq, Repr

/-- One row of `circuit_info.corners`: corner `Number` and its reference
`Distance` marker along the lap. -/
structure Corner where
  num : ℤ
  dist : ℚ
deriving DecidableEq, Repr

/-- One row of the DataFrame built by `get_avg_speed_between_corners`
(columns `avg_speed`, `corner_number`, `start_dist`, `end_dist`). -/
structure CornerRow where
  avg_speed : ℚ
  corner_number : ℤ
  start_dist : ℚ
  end_dist : ℚ
deriving DecidableEq, Repr

instance {ε α : Type} [DecidableEq ε] [DecidableEq α] : DecidableEq (Except ε α) := fun x y =>
  match x, y with
  | .ok a, .ok b => if h : a = b then .isTrue (by rw [h]) else .isFalse (by simp [h])
  | .error e, .error f => if h : e = f then .isTrue (by rw [h]) else .isFalse (by simp [h])
  | .ok _, .error _ => .isFalse (by simp)
  | .error _, .ok _ => .isFalse (by simp)

/-- Rounding to the nearest integer, phrased through `Rat.floor` so that
concrete instances evaluate. -/
def ratRound (x : ℚ) : ℤ := (x + 1/2).floor

lemma ratRound_eq_round (x : ℚ) : ratRound x = round x := by
  rw [round_eq, ratRound, Rat.floor_def', ← Rat.floor_def]

/-- Python's `round(x, 2)` (two decimal places).  Python rounds half to
even on binary floats; the claims under study never hinge on the tie
direction, so rounding half up is used. -/
def round2 (x : ℚ) : ℚ := (ratRound (x * 100) : ℚ) / 100

lemma round2_eq (x : ℚ) : round2 x = (round (x * 100) : ℚ) / 100 := by
  rw [round2, ratRound_eq_round]

/-- Result of the inner `for telemetry_tick in telemetry.iterrows()` loop of
`get_avg_speed_between_corners`: either the loop hit `break` at a sample
beyond the corner (carrying the accumulated `ticks`, speed sum and the
running `end`), or it exhausted the telemetry without breaking. -/
inductive InnerResult where
  | brk (ticks : ℕ) (acc : ℚ) (e : ℚ)
  | noBrk (e : ℚ)
deriving DecidableEq, Repr

/-- The inner telemetry loop of `get_avg_speed_between_corners`
(utils.py lines 173-183), for one corner at distance `cDist`, scanning the
telemetry from its beginning with accumulators `ticks`, `acc` and the
running `end` value `e`; `start` is the mutable `start` of the Python code. -/
def innerScan (cDist start : ℚ) : List Tick → ℕ → ℚ → ℚ → InnerResult
  | [], _, _, e => .noBrk e
  | t :: rest, ticks, acc, e =>
    if cDist < t.dist then .brk ticks acc e
    else if start < t.dist then innerScan cDist start rest (ticks + 1) (acc + t.speed) t.dist
    else innerScan cDist start rest ticks acc e

/-- The outer corner loop of `get_avg_speed_between_corners`
(utils.py lines 169-183).  State: `start` and `end` persist across corners
(both initialised to `0`).  On `break` the row is written and
`start := end`; `ticks = 0` at the `break` makes `avg_speed_accumulator/ticks`
raise `ZeroDivisionError`, modelled as `Except.error ()`.  Rows are appended
in corner order, matching `df.loc[corner['Number']] = ...` insertion for
distinct corner numbers. -/
def run (tel : List Tick) : List Corner → ℚ → ℚ → Except Unit (List CornerRow)
  | [], _, _ => .ok []
  | c :: cs, start, e =>
    match innerScan c.dist start tel 0 0 e with
    | .brk ticks acc e' =>
      if ticks = 0 then .error ()
      else
        match run tel cs e' e' with
        | .error u => .error u
        | .ok rest =>
          .ok ({ avg_speed := round2 (acc / (ticks : ℚ)), corner_number := c.num,
                 start_dist := start, end_dist := e' } :: rest)
    | .noBrk e' => run tel cs start e'

/-- Embedding of `get_avg_speed_between_corners` (utils.py lines 147-185), with the
session-derived inputs (fastest-lap telemetry, circuit corners) explicit. -/
def getAvgSpeedBetweenCorners (tel : List Tick) (corners : List Corner) :
    Except Unit (List CornerRow) :=
  run tel corners 0 0

/-- Does some telemetry sample lie strictly beyond the corner's distance
marker?  (Exactly the condition under which the inner loop `break`s and a
row for this corner is written.) -/
def reachedBy (tel : List Tick) (c : Corner) : Bool :=
  tel.any (fun t => decide (c.dist < t.dist))

/-- The samples the code attributes to a corner at distance `c` once the
running `start` is `p`: distance strictly above `p` and at most `c`. -/
def bucket (tel : List Tick) (p c : ℚ) : List Tick :=
  tel.filter (fun t => decide (p < t.dist ∧ t.dist ≤ c))

/-- Mean speed of a list of samples. -/
def avgOf (l : List Tick) : ℚ := ((l.map Tick.speed).sum) / (l.length : ℚ)

/-- Interval-based description of the corner segmentation, used to state
what `run` computes: walking the corners with left boundary `p` (initially
`0`), a reached corner takes the samples in the half-open interval
`(p, c.dist]` — an empty such interval for a reached corner is the
`ZeroDivisionError`; the first unreached corner ends the output. -/
def cornerAvgsSpec (tel : List Tick) : List Corner → ℚ → Except Unit (List (ℤ × ℚ))
  | [], _ => .ok []
  | c :: cs, p =>
    if reachedBy tel c then
      if (bucket tel p c.dist).isEmpty then .error ()
      else
        match cornerAvgsSpec tel cs c.dist with
        | .error u => .error u
        | .ok rest => .ok ((c.num, round2 (avgOf (bucket tel p c.dist))) :: rest)
    else .ok []

/-- Does some reached corner have an empty `(p, c.dist]` interval?
(The abort criterion of the segmentation.) -/
def hasEmptyInterval (tel : List Tick) : List Corner → ℚ → Bool
  | [], _ => false
  | c :: cs, p =>
    if reachedBy tel c then
      (bucket tel p c.dist).isEmpty || hasEmptyInterval tel cs c.dist
    else false

/-- Projection of the output rows to (corner number, average speed). -/
def rowsToPairs (rows : List CornerRow) : List (ℤ × ℚ) :=
  rows.map (fun r => (r.corner_number, r.avg_speed))

/-- The interval the specification text prescribes for a corner:
`[previous corner's distance, this corner's distance)` — lower bound
inclusive, upper bound exclusive. -/
def specClaimBucket (tel : List Tick) (p c : ℚ) : List Tick :=
  tel.filter (fun t => decide (p ≤ t.dist ∧ t.dist < c))

/-- Number of iterations the inner telemetry loop performs for one corner:
the `for telemetry_tick in telemetry.iterrows()` loop visits samples from
the beginning of the telemetry until (and including) the first sample
beyond the corner, or all of them when none lies beyond. -/
def innerIters (cDist : ℚ) : List Tick → ℕ
  | [] => 0
  | t :: rest => if cDist < t.dist then 1 else 1 + innerIters cDist rest

/-- Mirror of `run`, instrumented with the total number of inner-loop iterations
(telemetry reads) performed before the function returns or raises. -/
def runCost (tel : List Tick) : List Corner → ℚ → ℚ → ℕ
  | [], _, _ => 0
  | c :: cs, start, e =>
    innerIters c.dist tel +
      match innerScan c.dist start tel 0 0 e with
      | .brk ticks _ e' => if ticks = 0 then 0 else runCost tel cs e' e'
      | .noBrk e' => runCost tel cs start e'

/-- Telemetry family for the cost analysis: `m` samples at distances
`1, 2, …, m`, unit speed. -/
def telFam (m : ℕ) : List Tick :=
  (List.range m).map (fun (i : ℕ) => ⟨(i : ℚ) + 1, 1⟩)

/-- Corner family for the cost analysis: `n` corners at distances
`base + 1, base + 2, …, base + n`, all beyond every sample of `telFam m`
when `m ≤ base`. -/
def cornersFamAux (base : ℚ) : ℕ → List Corner
  | 0 => []
  | n + 1 => ⟨1, base + 1⟩ :: cornersFamAux (base + 1) n

/-- Association-list lookup on (corner number, value) pairs, first match
wins (the lookup semantics of a pandas index without duplicate labels). -/
def lookupKey {α : Type} (k : ℤ) : List (ℤ × α) → Option α
  | [] => none
  | (k', v) :: rest => if k' = k then some v else lookupKey k rest

/-- Row labels of `pd.concat([df1, df2], axis=1)`: the labels of `df1`
followed by the labels of `df2` that are new.  (`concat` with `axis=1`
aligns on the index with OUTER-join semantics.) -/
def diffKeys (d1 d2 : List (ℤ × ℚ)) : List ℤ :=
  d1.map Prod.fst ++ (d2.map Prod.fst).filter (fun k => decide (k ∉ d1.map Prod.fst))

/-- Embedding of `get_avg_speed_diff_drivers` (utils.py lines 188-208), applied to the
two per-corner aggregate sets keyed by corner number: `pd.concat(axis=1)`
keeps every corner number present in either set, and
`speed_diff = avg1 − avg2` is `NaN` (here `none`) whenever the corner is
missing from one side. -/
def speedDiff (d1 d2 : List (ℤ × ℚ)) : List (ℤ × Option ℚ) :=
  (diffKeys d1 d2).map (fun k =>
    (k, match lookupKey k d1, lookupKey k d2 with
        | some a, some b => some (a - b)
        | _, _ => none))

/-- Embedding of `get_avg_speed_diff_drivers` end to end: compute both competitors'
corner aggregates on the same circuit geometry, then align them.  Either
segmentation raising propagates (the Python function crashes). -/
def getAvgSpeedDiffDrivers (tel1 tel2 : List Tick) (corners : List Corner) :
    Except Unit (List (ℤ × Option ℚ)) :=
  match getAvgSpeedBetweenCorners tel1 corners, getAvgSpeedBetweenCorners tel2 corners with
  | .ok r1, .ok r2 => .ok (speedDiff (rowsToPairs r1) (rowsToPairs r2))
  | .error u, _ => .error u
  | _, .error u => .error u

/-- Embedding of `convert_timedelta_to_datetime` (utils.py lines 212-231) on a single
duration, measured in microseconds (the resolution of a Python
`timedelta`).  `reference + t` then `strftime("%M:%S.%f")[:-3]` keeps the
minute-of-hour, second and millisecond digits — dropping whole hours and
truncating to whole milliseconds — and `strptime` turns that string back
into a time value, here the surviving number of microseconds. -/
def convertTimedeltaToDatetime (t : ℤ) : ℤ :=
  (t % 3600000000) - (t % 3600000000) % 1000

/-- Python's `max()` over a list (raises on an empty sequence, like
`pandas.Series.max` seen by the code only on nonempty groups). -/
def pyListMax : List ℤ → Except Unit ℤ
  | [] => .error ()
  | x :: xs => .ok (xs.foldl max x)

/-- Strategy reconstruction for one competitor
(`get_parallel_coordinates_plot_dataset`, utils.py lines 382-405): the
competitor's laps carry (stint number, compound) pairs; the
`groupby(["Driver", "Stint", "Compound"]).count()` rows for the competitor
are the distinct such pairs, and
`stops = df["Stint"].max() - 1` over those rows. -/
def driverStops (laps : List (ℤ × ℕ)) : Except Unit ℤ :=
  (pyListMax (laps.dedup.map Prod.fst)).map (· - 1)

/-- One row of the per-driver strategy DataFrame `df2` of
`get_parallel_coordinates_plot_dataset` (utils.py line 395). -/
structure StratRow where
  driver : String
  stops : ℤ
  strategy : List ℕ
deriving DecidableEq, Repr

/-- One row of the final merged dataset of
`get_parallel_coordinates_plot_dataset` (utils.py lines 426-432). -/
structure MergedRow where
  driver : String
  stops : ℤ
  strategy : List ℕ
  qualiPos : ℕ
  finishPos : ℕ
deriving DecidableEq, Repr

/-- Embedding of `df2.drop_duplicates(subset=["Driver"])` (utils.py line 407): keep the
first row for each driver, preserving order; `seen` accumulates the drivers
already kept. -/
def dedupByDriver (seen : List String) : List StratRow → List StratRow
  | [] => []
  | r :: rs =>
    if r.driver ∈ seen then dedupByDriver seen rs
    else r :: dedupByDriver (r.driver :: seen) rs

/-- Embedding of `pd.merge(df2, qualifying_results, on="Driver")` (utils.py line 426):
inner join, left row order preserved. -/
def joinQuali (quali : List (String × ℕ)) : List StratRow → List (StratRow × ℕ)
  | [] => []
  | r :: rs =>
    ((quali.filter (fun q => decide (q.1 = r.driver))).map (fun q => (r, q.2)))
      ++ joinQuali quali rs

/-- Embedding of `pd.merge(merged_df, race_results, on="Driver")` (utils.py line 427). -/
def joinRace (race : List (String × ℕ)) : List (StratRow × ℕ) → List MergedRow
  | [] => []
  | (r, qp) :: rs =>
    ((race.filter (fun q => decide (q.1 = r.driver))).map
        (fun q => ⟨r.driver, r.stops, r.strategy, qp, q.2⟩))
      ++ joinRace race rs

/-- Insert into a list sorted by qualifying position. -/
def insertByQuali (r : MergedRow) : List MergedRow → List MergedRow
  | [] => [r]
  | x :: xs => if r.qualiPos ≤ x.qualiPos then r :: x :: xs else x :: insertByQuali r xs

/-- Embedding of `merged_df.sort_values('QualiPosition')` (utils.py line 430):
sort ascending by qualifying position. -/
def sortByQuali : List MergedRow → List MergedRow
  | [] => []
  | x :: xs => insertByQuali x (sortByQuali xs)

/-- The multi-factor merge of `get_parallel_coordinates_plot_dataset`
(utils.py lines 407-432): deduplicate the strategy rows by driver, inner
join with the qualifying ranking and the race ranking on the driver
identifier, then sort by qualifying position ascending. -/
def parallelCoordinatesDataset (strat : List StratRow) (quali race : List (String × ℕ)) :
    List MergedRow :=
  sortByQuali (joinRace race (joinQuali quali (dedupByDriver [] strat)))

/-- Embedding of `df[(year >= start) & (year <= end)]`: the inclusive year-range filter
of the historical aggregations (utils.py line 340, plots.py line 402),
over snapshot rows modelled as (year, label) pairs. -/
def filterYears (rows : List (ℤ × String)) (s e : ℤ) : List (ℤ × String) :=
  rows.filter (fun r => decide (s ≤ r.1 ∧ r.1 ≤ e))

/-- The distinct values of a list in first-appearance order. -/
def firstOccs (seen : List String) : List String → List String
  | [] => []
  | x :: xs => if x ∈ seen then firstOccs seen xs else x :: firstOccs (x :: seen) xs

/-- Insert into a list of (label, count) pairs sorted by descending count. -/
def insertByCountDesc (p : String × ℕ) : List (String × ℕ) → List (String × ℕ)
  | [] => [p]
  | x :: xs => if x.2 ≤ p.2 then p :: x :: xs else x :: insertByCountDesc p xs

/-- Sort (label, count) pairs by descending count. -/
def sortByCountDesc : List (String × ℕ) → List (String × ℕ)
  | [] => []
  | x :: xs => insertByCountDesc x (sortByCountDesc xs)

/-- Embedding of `Series.value_counts()`: occurrence count per distinct value, sorted by
descending count. -/
def valueCounts (l : List String) : List (String × ℕ) :=
  sortByCountDesc ((firstOccs [] l).map (fun s => (s, l.count s)))

/-- Embedding of `get_country_counts_ISO` (utils.py lines 324-355), with the snapshot
CSV rows as (event-date year, country) pairs and the `pycountry` lookup as
an explicit function: filter to the year range and count per country.  The
`ISO` column exists only once the row-wise enrichment loop has run at least
once (`country_counts_df.at[index, 'ISO'] = ...`, line 351), so when the
count table is empty — exactly when the year filter matched zero rows —
`dropna(subset=['ISO'])` at line 353 raises `KeyError`, modelled as
`Except.error ()`; otherwise the rows whose lookup failed are dropped. -/
def getCountryCountsISO (iso : String → Option String) (rows : List (ℤ × String))
    (s e : ℤ) : Except Unit (List (String × ℕ × String)) :=
  if (valueCounts ((filterYears rows s e).map Prod.snd)).isEmpty then .error ()
  else
    .ok ((valueCounts ((filterYears rows s e).map Prod.snd)).filterMap
      (fun p => (iso p.1).map (fun c => (p.1, p.2, c))))

/-- The team-win aggregation of `plot_race_wins_per_team` (plots.py lines
399-420), with the winners CSV rows as (season, team) pairs and the team
colour lookup explicit: filter to the year range, count wins per team,
sort descending, attach a colour with `'white'` as the per-row fallback. -/
def raceWinsPerTeam (color : String → Option String) (rows : List (ℤ × String))
    (s e : ℤ) : List (String × ℕ × String) :=
  (sortByCountDesc (valueCounts ((filterYears rows s e).map Prod.snd))).map
    (fun p => (p.1, p.2, (color p.1).getD "white"))

/-! ## Properties of the corner-segmentation sweep -/

lemma bucket_eq_nil_iff {tel : List Tick} {p c : ℚ} :
    bucket tel p c = [] ↔ ∀ t ∈ tel, ¬(p < t.dist ∧ t.dist ≤ c) := by
  simp [bucket, List.filter_eq_nil_iff]

lemma mem_bucket {tel : List Tick} {p c : ℚ} {t : Tick} :
    t ∈ bucket tel p c ↔ t ∈ tel ∧ p < t.dist ∧ t.dist ≤ c := by
  simp [bucket, List.mem_filter]

/-- What the inner loop returns when some sample lies beyond the corner:
it breaks, having accumulated exactly the samples of `bucket tel s cDist`,
and the running `end` value is the distance of the last of them (the
incoming `e` when there were none). -/
lemma innerScan_brk (cDist s : ℚ) :
    ∀ (tel : List Tick), tel.Pairwise (fun a b => a.dist < b.dist) →
      (∃ u ∈ tel, cDist < u.dist) →
      ∀ (ticks : ℕ) (acc e : ℚ),
      ∃ e', innerScan cDist s tel ticks acc e =
            .brk (ticks + (bucket tel s cDist).length)
                 (acc + ((bucket tel s cDist).map Tick.speed).sum) e' ∧
        (bucket tel s cDist = [] → e' = e) ∧
        ((∃ u ∈ bucket tel s cDist, u.dist = e') ∨ bucket tel s cDist = []) ∧
        (∀ u ∈ bucket tel s cDist, u.dist ≤ e') := by
  intro tel
  induction tel with
  | nil => intro _ hex; simp at hex
  | cons t rest ih =>
    intro hpw hex ticks acc e
    rw [List.pairwise_cons] at hpw
    obtain ⟨hhead, htail⟩ := hpw
    by_cases h1 : cDist < t.dist
    · have hb : bucket (t :: rest) s cDist = [] := by
        rw [bucket_eq_nil_iff]
        intro u hu
        rcases List.mem_cons.mp hu with rfl | hu'
        · exact fun hc => absurd hc.2 (not_le.mpr h1)
        · exact fun hc => absurd hc.2 (not_le.mpr (lt_trans h1 (hhead u hu')))
      refine ⟨e, ?_, fun _ => rfl, Or.inr hb, ?_⟩
      · simp only [innerScan, if_pos h1, hb]
        simp
      · rw [hb]; intro u hu; simp at hu
    · have hex' : ∃ u ∈ rest, cDist < u.dist := by
        obtain ⟨u, hu, hlt⟩ := hex
        rcases List.mem_cons.mp hu with rfl | hu'
        · exact absurd hlt h1
        · exact ⟨u, hu', hlt⟩
      by_cases h2 : s < t.dist
      · have hb : bucket (t :: rest) s cDist = t :: bucket rest s cDist :=
          List.filter_cons_of_pos (by simp [h2, not_lt.mp h1])
        obtain ⟨e', heq, hemp, hwit, hmax⟩ := ih htail hex' (ticks + 1) (acc + t.speed) t.dist
        have he' : t.dist ≤ e' := by
          rcases hwit with ⟨u0, hu0, hd⟩ | hb'
          · have : u0 ∈ rest := (mem_bucket.mp hu0).1
            exact hd ▸ le_of_lt (hhead u0 this)
          · exact le_of_eq (hemp hb').symm
        refine ⟨e', ?_, ?_, ?_, ?_⟩
        · simp only [innerScan, if_neg h1, if_pos h2, heq, hb]
          simp only [List.length_cons, List.map_cons, List.sum_cons, InnerResult.brk.injEq]
          exact ⟨by omega, by ring, trivial⟩
        · intro h; rw [hb] at h; exact (List.cons_ne_nil _ _ h).elim
        · rw [hb]
          rcases hwit with ⟨u0, hu0, hd⟩ | hb'
          · exact Or.inl ⟨u0, List.mem_cons_of_mem _ hu0, hd⟩
          · exact Or.inl ⟨t, List.mem_cons_self _ _, (hemp hb').symm⟩
        · rw [hb]
          intro u hu
          rcases List.mem_cons.mp hu with rfl | hu'
          · exact he'
          · exact hmax u hu'
      · have hb : bucket (t :: rest) s cDist = bucket rest s cDist :=
          List.filter_cons_of_neg (by simp [h2])
        obtain ⟨e', heq, hemp, hwit, hmax⟩ := ih htail hex' ticks acc e
        refine ⟨e', ?_, ?_, ?_, ?_⟩
        · simp only [innerScan, if_neg h1, if_neg h2, heq, hb]
        · rw [hb]; exact hemp
        · rw [hb]; exact hwit
        · rw [hb]; exact hmax

/-- When no sample lies beyond the corner, the inner loop exhausts the
telemetry without breaking. -/
lemma innerScan_noBrk (cDist s : ℚ) :
    ∀ (tel : List Tick), (∀ u ∈ tel, ¬ cDist < u.dist) →
      ∀ (ticks : ℕ) (acc e : ℚ),
      ∃ e', innerScan cDist s tel ticks acc e = .noBrk e' := by
  intro tel
  induction tel with
  | nil => exact fun _ ticks acc e => ⟨e, rfl⟩
  | cons t rest ih =>
    intro h ticks acc e
    have h1 : ¬ cDist < t.dist := h t (List.mem_cons_self _ _)
    have h' : ∀ u ∈ rest, ¬ cDist < u.dist := fun u hu => h u (List.mem_cons_of_mem _ hu)
    by_cases h2 : s < t.dist
    · obtain ⟨e', he'⟩ := ih h' (ticks + 1) (acc + t.speed) t.dist
      exact ⟨e', by simp only [innerScan, if_neg h1, if_pos h2, he']⟩
    · obtain ⟨e', he'⟩ := ih h' ticks acc e
      exact ⟨e', by simp only [innerScan, if_neg h1, if_neg h2, he']⟩

/-- Corners that no telemetry sample lies beyond produce no rows at all:
the outer loop keeps running but never breaks out of the inner loop. -/
lemma run_unreached (tel : List Tick) :
    ∀ (cs : List Corner), (∀ c ∈ cs, ∀ u ∈ tel, ¬ c.dist < u.dist) →
      ∀ s e, run tel cs s e = .ok [] := by
  intro cs
  induction cs with
  | nil => intro _ s e; rfl
  | cons c cs' ih =>
    intro h s e
    obtain ⟨e', he'⟩ := innerScan_noBrk c.dist s tel (h c (List.mem_cons_self _ _)) 0 0 e
    simp only [run, he']
    exact ih (fun c' hc' => h c' (List.mem_cons_of_mem _ hc')) s e'

/-- Master characterization of the sweep of `get_avg_speed_between_corners`:
for strictly distance-ordered telemetry and corners, starting from a
`start` value `s` that separates the samples exactly as the previous
corner's distance `p` does, the function computes corner by corner the
rounded mean speed over the samples in `(p, c.dist]`, raises on an empty
reached interval, and stops producing rows at the first unreached corner. -/
lemma run_proj (tel : List Tick) (htel : tel.Pairwise (fun a b => a.dist < b.dist)) :
    ∀ (corners : List Corner), corners.Pairwise (fun a b => a.dist < b.dist) →
    ∀ (s e p : ℚ), (∀ t ∈ tel, (s < t.dist ↔ p < t.dist)) →
    Except.map rowsToPairs (run tel corners s e) = cornerAvgsSpec tel corners p := by
  intro corners
  induction corners with
  | nil => intro _ s e p _; rfl
  | cons c cs ih =>
    intro hpw s e p hp
    rw [List.pairwise_cons] at hpw
    obtain ⟨hhead, htail⟩ := hpw
    have hbeq : bucket tel s c.dist = bucket tel p c.dist :=
      List.filter_congr fun t ht => decide_eq_decide.mpr (and_congr_left' (hp t ht))
    by_cases hreach : ∃ u ∈ tel, c.dist < u.dist
    · have hreachb : reachedBy tel c = true := by
        simp only [reachedBy, List.any_eq_true, decide_eq_true_eq]
        exact hreach
      obtain ⟨e', heq, hemp, hwit, hmax⟩ := innerScan_brk c.dist s tel htel hreach 0 0 e
      rw [hbeq] at heq hemp hwit hmax
      by_cases hempty : bucket tel p c.dist = []
      · have heq' : innerScan c.dist s tel 0 0 e = .brk 0 0 e' := by
          rw [heq, hempty]; simp
        have hrhs : cornerAvgsSpec tel (c :: cs) p = .error () := by
          simp only [cornerAvgsSpec, hreachb, if_true]
          rw [if_pos (by simp [List.isEmpty_iff, hempty])]
        rw [hrhs]
        simp only [run, heq']
        rfl
      · have hlen : (bucket tel p c.dist).length ≠ 0 := by
          simpa [List.length_eq_zero] using hempty
        obtain ⟨u0, hu0, hu0d⟩ := hwit.resolve_right hempty
        obtain ⟨hu0tel, hu0p, hu0c⟩ := mem_bucket.mp hu0
        have hp' : ∀ t ∈ tel, (e' < t.dist ↔ c.dist < t.dist) := by
          intro t ht
          constructor
          · intro hlt
            by_contra hnot
            have htb : t ∈ bucket tel p c.dist :=
              mem_bucket.mpr ⟨ht, lt_trans (hu0d ▸ hu0p) hlt, not_lt.mp hnot⟩
            exact absurd (hmax t htb) (not_le.mpr hlt)
          · exact fun h => lt_of_le_of_lt (hu0d ▸ hu0c) h
        have ihr := ih htail e' e' c.dist hp'
        have hrhs : cornerAvgsSpec tel (c :: cs) p =
            (match cornerAvgsSpec tel cs c.dist with
             | .error u => .error u
             | .ok rest => .ok ((c.num, round2 (avgOf (bucket tel p c.dist))) :: rest)) := by
          simp only [cornerAvgsSpec, hreachb, if_true]
          rw [if_neg (by simp [List.isEmpty_iff, hempty])]
        rw [hrhs]
        simp only [run, heq, Nat.zero_add, zero_add]
        rw [if_neg hlen]
        cases hrec : run tel cs e' e' with
        | error u =>
          rw [hrec] at ihr
          simp only [Except.map] at ihr ⊢
          rw [← ihr]
        | ok rest =>
          rw [hrec] at ihr
          simp only [Except.map] at ihr ⊢
          rw [← ihr]
          simp only [rowsToPairs, List.map_cons, avgOf]
    · have hreachb : reachedBy tel c = false := by
        simp only [reachedBy, List.any_eq_false, decide_eq_true_eq]
        push_neg at hreach
        exact fun u hu => not_lt.mpr (hreach u hu)
      push_neg at hreach
      obtain ⟨e', he'⟩ := innerScan_noBrk c.dist s tel (fun u hu => not_lt.mpr (hreach u hu)) 0 0 e
      have hrun : run tel (c :: cs) s e = .ok [] := by
        simp only [run, he']
        exact run_unreached tel cs
          (fun c' hc' u hu => not_lt.mpr (le_of_lt (lt_of_le_of_lt (hreach u hu) (hhead c' hc'))))
          s e'
      rw [hrun]
      simp only [cornerAvgsSpec, hreachb]
      rfl

/-- The characterization at the initial state `start = end = 0` of
`get_avg_speed_between_corners`. -/
lemma getAvg_eq_spec (tel : List Tick) (htel : tel.Pairwise (fun a b => a.dist < b.dist))
    (corners : List Corner) (hc : corners.Pairwise (fun a b => a.dist < b.dist)) :
    Except.map rowsToPairs (getAvgSpeedBetweenCorners tel corners) =
      cornerAvgsSpec tel corners 0 :=
  run_proj tel htel corners hc 0 0 0 (fun _ _ => Iff.rfl)

/-- The interval description raises exactly when some reached corner's
interval holds no sample. -/
lemma cornerAvgsSpec_error_iff (tel : List Tick) :
    ∀ (corners : List Corner) (p : ℚ),
      (cornerAvgsSpec tel corners p = .error () ↔ hasEmptyInterval tel corners p = true) := by
  intro corners
  induction corners with
  | nil => intro p; simp [cornerAvgsSpec, hasEmptyInterval]
  | cons c cs ih =>
    intro p
    by_cases hr : reachedBy tel c
    · by_cases hbe : (bucket tel p c.dist).isEmpty
      · simp [cornerAvgsSpec, hasEmptyInterval, hr, hbe]
      · simp only [cornerAvgsSpec, hasEmptyInterval, hr, if_true, hbe, if_false,
          Bool.false_or]
        cases hrec : cornerAvgsSpec tel cs c.dist with
        | error u =>
          cases u
          simpa using (ih c.dist).mp hrec
        | ok rest =>
          constructor
          · intro hh
            simp at hh
          · intro hh
            have hcontra := (ih c.dist).mpr hh
            rw [hrec] at hcontra
            cases hcontra
    · simp [cornerAvgsSpec, hasEmptyInterval, hr]

/-- When the interval description succeeds, the output corner numbers are
those of the longest reached prefix of the corner list, in order. -/
lemma cornerAvgsSpec_ok_keys (tel : List Tick) :
    ∀ (corners : List Corner) (p : ℚ) (l : List (ℤ × ℚ)),
      cornerAvgsSpec tel corners p = .ok l →
      l.map Prod.fst = (corners.takeWhile (reachedBy tel)).map Corner.num := by
  intro corners
  induction corners with
  | nil =>
    intro p l h
    simp only [cornerAvgsSpec] at h
    cases h
    rfl
  | cons c cs ih =>
    intro p l h
    by_cases hr : reachedBy tel c
    · by_cases hbe : (bucket tel p c.dist).isEmpty
      · simp [cornerAvgsSpec, hr, hbe] at h
      · simp only [cornerAvgsSpec, hr, if_true, hbe, if_false] at h
        cases hrec : cornerAvgsSpec tel cs c.dist with
        | error u => rw [hrec] at h; cases h
        | ok rest =>
          rw [hrec] at h
          cases h
          simp only [List.map_cons, List.takeWhile_cons_of_pos hr, List.map_cons]
          rw [ih c.dist rest hrec]
    · simp only [cornerAvgsSpec, hr, if_false] at h
      cases h
      simp [List.takeWhile_cons_of_neg hr]

/-- Every average the interval description emits is the rounded mean of a
nonempty sub-multiset of the telemetry. -/
lemma cornerAvgsSpec_ok_avgs (tel : List Tick) :
    ∀ (corners : List Corner) (p : ℚ) (l : List (ℤ × ℚ)),
      cornerAvgsSpec tel corners p = .ok l →
      ∀ x ∈ l, ∃ b : List Tick, b ≠ [] ∧ (∀ u ∈ b, u ∈ tel) ∧ x.2 = round2 (avgOf b) := by
  intro corners
  induction corners with
  | nil =>
    intro p l h
    simp only [cornerAvgsSpec] at h
    cases h
    intro x hx
    simp at hx
  | cons c cs ih =>
    intro p l h
    by_cases hr : reachedBy tel c
    · by_cases hbe : (bucket tel p c.dist).isEmpty
      · simp [cornerAvgsSpec, hr, hbe] at h
      · simp only [cornerAvgsSpec, hr, if_true, hbe, if_false] at h
        cases hrec : cornerAvgsSpec tel cs c.dist with
        | error u => rw [hrec] at h; cases h
        | ok rest =>
          rw [hrec] at h
          cases h
          intro x hx
          rcases List.mem_cons.mp hx with rfl | hx'
          · refine ⟨bucket tel p c.dist, by simpa [List.isEmpty_iff] using hbe,
              fun u hu => (mem_bucket.mp hu).1, rfl⟩
          · exact ih c.dist rest hrec x hx'
    · simp only [cornerAvgsSpec, hr, if_false] at h
      cases h
      intro x hx
      simp at hx

lemma round2_mono {x y : ℚ} (h : x ≤ y) : round2 x ≤ round2 y := by
  rw [round2_eq, round2_eq]
  have hr : round (x * 100) ≤ round (y * 100) := by
    rw [round_eq, round_eq]
    exact Int.floor_mono (by linarith)
  have hc : ((round (x * 100) : ℤ) : ℚ) ≤ ((round (y * 100) : ℤ) : ℚ) := by exact_mod_cast hr
  linarith

lemma round2_nonneg {x : ℚ} (hx : 0 ≤ x) : 0 ≤ round2 x := by
  have h := round2_mono hx
  simpa [round2_eq] using h

lemma avgOf_nonneg {b : List Tick} (h : ∀ u ∈ b, 0 ≤ u.speed) : 0 ≤ avgOf b := by
  refine div_nonneg (List.sum_nonneg ?_) (by positivity)
  intro x hx
  obtain ⟨u, hu, rfl⟩ := List.mem_map.mp hx
  exact h u hu

lemma avgOf_le {b : List Tick} {M : ℚ} (hb : b ≠ []) (h : ∀ u ∈ b, u.speed ≤ M) :
    avgOf b ≤ M := by
  have hlen : (0 : ℚ) < (b.length : ℚ) := by
    exact_mod_cast List.length_pos.mpr hb
  rw [avgOf, div_le_iff₀ hlen]
  have hsum : (b.map Tick.speed).sum ≤ (b.map Tick.speed).length • M := by
    refine List.sum_le_card_nsmul _ _ ?_
    intro x hx
    obtain ⟨u, hu, rfl⟩ := List.mem_map.mp hx
    exact h u hu
  calc (b.map Tick.speed).sum ≤ (b.map Tick.speed).length • M := hsum
    _ = (b.length : ℚ) * M := by rw [List.length_map, nsmul_eq_mul]
    _ = M * (b.length : ℚ) := mul_comm _ _

lemma except_map_error_iff {α β : Type} (f : α → β) (x : Except Unit α) :
    (Except.map f x = .error () ↔ x = .error ()) := by
  cases x with
  | error u => cases u; simp [Except.map]
  | ok a => simp [Except.map]

/-- The corner numbers of the emitted rows form a sublist of the corner
numbers of the circuit geometry, whatever the telemetry. -/
lemma run_keys_sublist (tel : List Tick) :
    ∀ (cs : List Corner) (s e : ℚ) (rows : List CornerRow),
      run tel cs s e = .ok rows →
      (rows.map CornerRow.corner_number).Sublist (cs.map Corner.num) := by
  intro cs
  induction cs with
  | nil => intro s e rows h; cases h; simp
  | cons c cs' ih =>
    intro s e rows h
    cases hscan : innerScan c.dist s tel 0 0 e with
    | brk ticks acc e' =>
      simp only [run, hscan] at h
      by_cases ht : ticks = 0
      · rw [if_pos ht] at h; cases h
      · rw [if_neg ht] at h
        cases hrec : run tel cs' e' e' with
        | error u => rw [hrec] at h; cases h
        | ok rest =>
          rw [hrec] at h
          cases h
          simp only [List.map_cons]
          exact List.Sublist.cons₂ _ (ih e' e' rest hrec)
    | noBrk e' =>
      simp only [run, hscan] at h
      exact List.Sublist.cons _ (ih s e' rows h)

/-- A corner no sample lies beyond makes the inner loop visit the entire
telemetry. -/
lemma innerIters_all (cDist : ℚ) :
    ∀ (tel : List Tick), (∀ u ∈ tel, ¬ cDist < u.dist) →
      innerIters cDist tel = tel.length := by
  intro tel
  induction tel with
  | nil => intro _; rfl
  | cons t rest ih =>
    intro h
    simp only [innerIters, if_neg (h t (List.mem_cons_self _ _)), List.length_cons]
    rw [ih (fun u hu => h u (List.mem_cons_of_mem _ hu))]
    omega

lemma telFam_length (m : ℕ) : (telFam m).length = m := by
  rw [telFam, List.length_map, List.length_range]

lemma telFam_dist_le (m : ℕ) : ∀ t ∈ telFam m, t.dist ≤ (m : ℚ) := by
  intro t ht
  rw [telFam, List.mem_map] at ht
  obtain ⟨i, hi, rfl⟩ := ht
  rw [List.mem_range] at hi
  have h2 : (i : ℚ) + 1 ≤ (m : ℚ) := by exact_mod_cast Nat.succ_le_of_lt hi
  simpa using h2

lemma cornersFamAux_length : ∀ (n : ℕ) (base : ℚ), (cornersFamAux base n).length = n := by
  intro n
  induction n with
  | zero => intro base; rfl
  | succ k ih => intro base; simp [cornersFamAux, ih]

/-- On the cost family every corner lies beyond the whole telemetry, so
each of the `n` corners re-scans all `m` samples. -/
lemma runCost_fam_aux (m : ℕ) :
    ∀ (n : ℕ) (base : ℚ), (m : ℚ) ≤ base →
      ∀ s e, runCost (telFam m) (cornersFamAux base n) s e = n * m := by
  intro n
  induction n with
  | zero => intro base _ s e; simp [cornersFamAux, runCost]
  | succ k ih =>
    intro base hbase s e
    have hnone : ∀ u ∈ telFam m, ¬ ((⟨1, base + 1⟩ : Corner).dist < u.dist) := by
      intro u hu
      have := telFam_dist_le m u hu
      simp only [not_lt]
      calc u.dist ≤ (m : ℚ) := this
        _ ≤ base := hbase
        _ ≤ base + 1 := by linarith
    obtain ⟨e', he'⟩ := innerScan_noBrk (base + 1) s (telFam m) hnone 0 0 e
    simp only [cornersFamAux, runCost, he']
    rw [innerIters_all _ _ hnone, telFam_length,
      ih (base + 1) (by linarith) s e']
    ring

lemma cornersFamAux_all_beyond (m : ℕ) :
    ∀ (n : ℕ) (base : ℚ), (m : ℚ) ≤ base →
      ∀ c ∈ cornersFamAux base n, ∀ u ∈ telFam m, ¬ c.dist < u.dist := by
  intro n
  induction n with
  | zero => intro base _ c hc; simp [cornersFamAux] at hc
  | succ k ih =>
    intro base hbase c hc u hu
    rcases List.mem_cons.mp hc with rfl | hc'
    · have hd := telFam_dist_le m u hu
      simp only [not_lt]
      calc u.dist ≤ (m : ℚ) := hd
        _ ≤ base + 1 := by linarith
    · exact ih (base + 1) (by linarith) c hc' u hu

/-! ## Claims about the corner segmentation -/

/-- Claim C1, counterexample:  The claim says a corner whose interval holds no
sample yields an explicit "undefined" average and the rest of the
computation completes.  On corners at distances 10 and 20 with telemetry at
distances 5 and 25 only, corner 2's interval is empty while a sample lies
beyond it: the code divides `avg_speed_accumulator` by `ticks = 0` and the
whole computation raises `ZeroDivisionError` — nothing is returned, not
even corner 1's row. -/
theorem corner_empty_interval_cex :
    getAvgSpeedBetweenCorners [⟨5, 100⟩, ⟨25, 50⟩] [⟨1, 10⟩, ⟨2, 20⟩] = .error () ∧
      hasEmptyInterval [⟨5, 100⟩, ⟨25, 50⟩] [⟨1, 10⟩, ⟨2, 20⟩] 0 = true := by
  constructor
  · norm_num [getAvgSpeedBetweenCorners, run, innerScan]
  · norm_num [hasEmptyInterval, reachedBy, bucket, List.any, List.filter]

/-- Claim C1, amended:  For strictly distance-ordered telemetry and corners,
the segmentation raises `ZeroDivisionError` (returns nothing at all) if and
only if some reached corner's interval `(previous boundary, corner]`
contains no telemetry sample; no "undefined" average is ever produced. -/
theorem corner_empty_interval_raises (tel : List Tick) (corners : List Corner)
    (htel : tel.Pairwise (fun a b => a.dist < b.dist))
    (hc : corners.Pairwise (fun a b => a.dist < b.dist)) :
    (getAvgSpeedBetweenCorners tel corners = .error () ↔
      hasEmptyInterval tel corners 0 = true) := by
  rw [← except_map_error_iff rowsToPairs, getAvg_eq_spec tel htel corners hc]
  exact cornerAvgsSpec_error_iff tel corners 0

/-- Witness for `corner_empty_interval_raises` at a concrete session. -/
theorem corner_empty_interval_raises_witness :
    getAvgSpeedBetweenCorners [⟨4, 90⟩, ⟨26, 40⟩] [⟨1, 9⟩, ⟨2, 21⟩] = .error () :=
  (corner_empty_interval_raises [⟨4, 90⟩, ⟨26, 40⟩] [⟨1, 9⟩, ⟨2, 21⟩]
      (by norm_num [List.pairwise_cons]) (by norm_num [List.pairwise_cons])).mpr
    (by norm_num [hasEmptyInterval, reachedBy, bucket, List.any, List.filter])

/-- Claim C8, counterexample:  A sample at distance exactly 10 — the first
corner's marker — is averaged into corner 1 (the code's upper bound is
inclusive), while the claimed interval `[0, 10)` would exclude it: the code
produces 75 for corner 1 where the claimed interval yields 100. -/
theorem corner_interval_cex :
    Except.map rowsToPairs
        (getAvgSpeedBetweenCorners [⟨5, 100⟩, ⟨10, 50⟩, ⟨15, 60⟩, ⟨25, 0⟩]
          [⟨1, 10⟩, ⟨2, 20⟩]) = .ok [(1, 75), (2, 60)] ∧
      round2 (avgOf (specClaimBucket [⟨5, 100⟩, ⟨10, 50⟩, ⟨15, 60⟩, ⟨25, 0⟩] 0 10)) = 100 ∧
      (75 : ℚ) ≠ 100 := by
  refine ⟨?_, ?_, by norm_num⟩
  · norm_num [getAvgSpeedBetweenCorners, run, innerScan, round2, ratRound, Rat.floor,
      rowsToPairs, Except.map]
  · norm_num [specClaimBucket, avgOf, round2, ratRound, Rat.floor, List.filter]

/-- Claim C8, amended:  For strictly distance-ordered telemetry and corners
the segmentation equals the interval description `cornerAvgsSpec`: each
corner's average is over the half-open interval
`(previous boundary, corner distance]` — lower bound EXCLUSIVE, upper bound
INCLUSIVE — with leading telemetry strictly after distance 0 in the first
interval, trailing telemetry beyond the last corner discarded, and a sample
exactly on a corner marker counted into that corner, not the next. -/
theorem corner_interval_characterization (tel : List Tick) (corners : List Corner)
    (htel : tel.Pairwise (fun a b => a.dist < b.dist))
    (hc : corners.Pairwise (fun a b => a.dist < b.dist)) :
    Except.map rowsToPairs (getAvgSpeedBetweenCorners tel corners) =
      cornerAvgsSpec tel corners 0 :=
  getAvg_eq_spec tel htel corners hc

/-- Witness for `corner_interval_characterization` at a concrete session. -/
theorem corner_interval_characterization_witness :
    Except.map rowsToPairs (getAvgSpeedBetweenCorners [⟨5, 100⟩, ⟨11, 0⟩] [⟨1, 10⟩]) =
        cornerAvgsSpec [⟨5, 100⟩, ⟨11, 0⟩] [⟨1, 10⟩] 0 ∧
      cornerAvgsSpec [⟨5, 100⟩, ⟨11, 0⟩] [⟨1, 10⟩] 0 = .ok [(1, 100)] := by
  constructor
  · exact corner_interval_characterization [⟨5, 100⟩, ⟨11, 0⟩] [⟨1, 10⟩]
      (by norm_num [List.pairwise_cons]) (by norm_num [List.pairwise_cons])
  · norm_num [cornerAvgsSpec, reachedBy, bucket, avgOf, round2, ratRound, Rat.floor,
      List.any, List.filter]

/-- Claim C2, counterexample:  On corners at distances 10 and 20 with
telemetry reaching only distance 15, corner 2 gets no row at all (its
distance is never exceeded, so the inner loop never breaks): the output has
1 row for 2 corners — not "exactly one row per corner", and no "undefined"
marker is emitted either. -/
theorem corner_rows_cex :
    Except.map rowsToPairs
        (getAvgSpeedBetweenCorners [⟨5, 100⟩, ⟨15, 60⟩] [⟨1, 10⟩, ⟨2, 20⟩]) =
        .ok [(1, 100)] ∧
      [((1 : ℤ), (100 : ℚ))].length ≠ ([⟨1, 10⟩, ⟨2, 20⟩] : List Corner).length := by
  constructor
  · norm_num [getAvgSpeedBetweenCorners, run, innerScan, round2, ratRound, Rat.floor,
      rowsToPairs, Except.map]
  · decide

/-- Claim C2, amended:  For strictly distance-ordered telemetry and corners
with strictly increasing corner numbers and speeds in `[0, M]`, a
successful segmentation yields exactly one row per corner of the longest
prefix of corners some sample lies beyond (corners past the telemetry get
no row), with corner numbers ascending and every emitted average in
`[0, round2 M]`; an average is never "undefined" — the empty-interval case
raises instead (`corner_empty_interval_raises`). -/
theorem corner_rows_shape (tel : List Tick) (corners : List Corner) (M : ℚ)
    (htel : tel.Pairwise (fun a b => a.dist < b.dist))
    (hc : corners.Pairwise (fun a b => a.dist < b.dist))
    (hnum : (corners.map Corner.num).Pairwise (· < ·))
    (hspeed : ∀ u ∈ tel, 0 ≤ u.speed ∧ u.speed ≤ M)
    (rows : List CornerRow)
    (hok : getAvgSpeedBetweenCorners tel corners = .ok rows) :
    rows.map CornerRow.corner_number =
        (corners.takeWhile (reachedBy tel)).map Corner.num ∧
      (rows.map CornerRow.corner_number).Pairwise (· < ·) ∧
      ∀ r ∈ rows, 0 ≤ r.avg_speed ∧ r.avg_speed ≤ round2 M := by
  have hmap := getAvg_eq_spec tel htel corners hc
  rw [hok] at hmap
  simp only [Except.map] at hmap
  have hkeys := cornerAvgsSpec_ok_keys tel corners 0 (rowsToPairs rows) hmap.symm
  have hfst : (rowsToPairs rows).map Prod.fst = rows.map CornerRow.corner_number := by
    simp [rowsToPairs, List.map_map]
  refine ⟨?_, ?_, ?_⟩
  · rw [← hfst]
    exact hkeys
  · rw [← hfst, hkeys]
    exact List.Pairwise.sublist (List.Sublist.map _ (List.takeWhile_sublist _)) hnum
  · intro r hr
    have hx : (r.corner_number, r.avg_speed) ∈ rowsToPairs rows :=
      List.mem_map_of_mem _ hr
    obtain ⟨b, hbne, hbsub, hbeq⟩ :=
      cornerAvgsSpec_ok_avgs tel corners 0 (rowsToPairs rows) hmap.symm _ hx
    have hbeq' : r.avg_speed = round2 (avgOf b) := hbeq
    constructor
    · rw [hbeq']
      exact round2_nonneg (avgOf_nonneg (fun u hu => (hspeed u (hbsub u hu)).1))
    · rw [hbeq']
      exact round2_mono (avgOf_le hbne (fun u hu => (hspeed u (hbsub u hu)).2))

/-- Witness for `corner_rows_shape` on a concrete session where corner 2 is
beyond the telemetry. -/
theorem corner_rows_shape_witness :
    [(⟨100, 1, 0, 5⟩ : CornerRow)].map CornerRow.corner_number =
        (([⟨1, 10⟩, ⟨2, 20⟩] : List Corner).takeWhile
          (reachedBy [⟨5, 100⟩, ⟨15, 60⟩])).map Corner.num ∧
      ([(⟨100, 1, 0, 5⟩ : CornerRow)].map CornerRow.corner_number).Pairwise (· < ·) ∧
      ∀ r ∈ [(⟨100, 1, 0, 5⟩ : CornerRow)], 0 ≤ r.avg_speed ∧ r.avg_speed ≤ round2 100 :=
  corner_rows_shape [⟨5, 100⟩, ⟨15, 60⟩] [⟨1, 10⟩, ⟨2, 20⟩] 100
    (by norm_num [List.pairwise_cons])
    (by norm_num [List.pairwise_cons])
    (by norm_num [List.pairwise_cons])
    (by intro u hu; fin_cases hu <;> norm_num)
    [⟨100, 1, 0, 5⟩]
    (by norm_num [getAvgSpeedBetweenCorners, run, innerScan, round2, ratRound, Rat.floor])

/-- Claim C9, counterexample:  The claim says the segmentation is a single
two-pointer sweep that never re-scans the telemetry once per corner.  On a
session with 10 samples and 10 corners beyond them, the code performs 100
telemetry reads — 10 full re-scans of all 10 samples, one per corner — not
the ≤ samples + corners = 20 of a single ordered sweep. -/
theorem corner_sweep_cost_cex :
    runCost (telFam 10) (cornersFamAux ((10 : ℕ) : ℚ) 10) 0 0 = 100 ∧
      (telFam 10).length + (cornersFamAux ((10 : ℕ) : ℚ) 10).length = 20 ∧
      ∀ c ∈ cornersFamAux ((10 : ℕ) : ℚ) 10,
        innerIters c.dist (telFam 10) = (telFam 10).length := by
  refine ⟨(runCost_fam_aux 10 10 _ le_rfl 0 0).trans (by norm_num), ?_, ?_⟩
  · rw [telFam_length, cornersFamAux_length]
  · intro c hc
    exact innerIters_all c.dist (telFam 10)
      (cornersFamAux_all_beyond 10 10 _ le_rfl c hc)

/-- Claim C9, amended:  The inner loop restarts from the beginning of the
telemetry for every corner (utils.py line 173 sits inside the corner loop
of line 169), so the number of telemetry reads is the sum over corners of
the re-scan length: on the family with `m` samples and `n` corners beyond
them it is exactly `n * m`, quadratic rather than `O(samples + corners)`. -/
theorem corner_sweep_cost_family (m n : ℕ) :
    runCost (telFam m) (cornersFamAux ((m : ℕ) : ℚ) n) 0 0 = n * m :=
  runCost_fam_aux m n ((m : ℕ) : ℚ) le_rfl 0 0

/-! ## Claims about the comparative analytics -/

lemma lookupKey_keyed {β : Type} (f : ℤ → β) :
    ∀ (keys : List ℤ) (k : ℤ),
      lookupKey k (keys.map (fun j => (j, f j))) =
        if k ∈ keys then some (f k) else none := by
  intro keys
  induction keys with
  | nil => intro k; simp [lookupKey]
  | cons k' rest ih =>
    intro k
    simp only [List.map_cons, lookupKey]
    by_cases h : k' = k
    · subst h
      simp
    · rw [if_neg h, ih]
      by_cases hm : k ∈ rest
      · rw [if_pos hm, if_pos (List.mem_cons_of_mem _ hm)]
      · rw [if_neg hm, if_neg (by simp [hm, Ne.symm h])]

lemma mem_diffKeys {d1 d2 : List (ℤ × ℚ)} {k : ℤ} :
    k ∈ diffKeys d1 d2 ↔ k ∈ d1.map Prod.fst ∨ k ∈ d2.map Prod.fst := by
  simp only [diffKeys, List.mem_append, List.mem_filter, decide_eq_true_eq]
  tauto

lemma lookupKey_isSome_mem {α : Type} :
    ∀ {l : List (ℤ × α)} {k : ℤ} {a : α},
      lookupKey k l = some a → k ∈ l.map Prod.fst := by
  intro l
  induction l with
  | nil => intro k a h; cases h
  | cons p rest ih =>
    intro k a h
    obtain ⟨k1, v1⟩ := p
    rw [lookupKey] at h
    by_cases hk : k1 = k
    · simp [hk]
    · rw [if_neg hk] at h
      exact List.mem_cons_of_mem _ (ih h)

lemma map_fst_keyed {β : Type} (f : ℤ → β) :
    ∀ (keys : List ℤ), ((keys.map (fun j => (j, f j))).map Prod.fst) = keys := by
  intro keys
  induction keys with
  | nil => rfl
  | cons x xs ih => simp only [List.map_cons, ih]

lemma speedDiff_lookup (d1 d2 : List (ℤ × ℚ)) (k : ℤ) :
    lookupKey k (speedDiff d1 d2) =
      if k ∈ diffKeys d1 d2 then
        some (match lookupKey k d1, lookupKey k d2 with
              | some a, some b => some (a - b)
              | _, _ => none)
      else none :=
  lookupKey_keyed _ (diffKeys d1 d2) k

/-- Claim C3, counterexample:  `pd.concat(axis=1)` aligns with OUTER-join
semantics: a corner present only in the second aggregate set still
produces an output row — with an undefined (`NaN`) difference — instead of
being dropped as the claim states. -/
theorem speed_diff_inner_join_cex :
    speedDiff [(1, 100)] [(1, 98), (2, 97)] = [(1, some 2), (2, none)] ∧
      (2 : ℤ) ∉ ([(1, 100)] : List (ℤ × ℚ)).map Prod.fst := by
  constructor
  · norm_num [speedDiff, diffKeys, lookupKey]
  · simp

/-- Claim C3, amended:  The alignment of `get_avg_speed_diff_drivers` is by
corner number with OUTER-join semantics: the output has a row exactly for
every corner number present in either aggregate set; where both sides have
the corner, `speed_diff` equals competitor1's average minus competitor2's;
a corner present on only one side yields a row whose `speed_diff` is
undefined (`NaN`), not a dropped row. -/
theorem speed_diff_outer_join (d1 d2 : List (ℤ × ℚ)) (k : ℤ) :
    (k ∈ (speedDiff d1 d2).map Prod.fst ↔
        k ∈ d1.map Prod.fst ∨ k ∈ d2.map Prod.fst) ∧
      (∀ a b, lookupKey k d1 = some a → lookupKey k d2 = some b →
        lookupKey k (speedDiff d1 d2) = some (some (a - b))) ∧
      ((lookupKey k d1 = none ∨ lookupKey k d2 = none) →
        ∀ o, lookupKey k (speedDiff d1 d2) = some o → o = none) := by
  have hkeys : (speedDiff d1 d2).map Prod.fst = diffKeys d1 d2 :=
    map_fst_keyed _ (diffKeys d1 d2)
  refine ⟨by rw [hkeys]; exact mem_diffKeys, ?_, ?_⟩
  · intro a b ha hb
    rw [speedDiff_lookup, if_pos (mem_diffKeys.mpr (Or.inl (lookupKey_isSome_mem ha))),
      ha, hb]
  · intro hnone o ho
    rw [speedDiff_lookup] at ho
    by_cases hm : k ∈ diffKeys d1 d2
    · rw [if_pos hm] at ho
      rcases hnone with hn | hn
      · rw [hn] at ho
        cases hlk : lookupKey k d2 with
        | none => rw [hlk] at ho; exact (Option.some_injective _ ho).symm
        | some b => rw [hlk] at ho; exact (Option.some_injective _ ho).symm
      · rw [hn] at ho
        cases hlk : lookupKey k d1 with
        | none => rw [hlk] at ho; exact (Option.some_injective _ ho).symm
        | some a => rw [hlk] at ho; exact (Option.some_injective _ ho).symm
    · rw [if_neg hm] at ho
      cases ho

/-- Witness for `speed_diff_outer_join` on concrete aggregate sets. -/
theorem speed_diff_outer_join_witness :
    ((2 : ℤ) ∈ (speedDiff [(1, 100)] [(1, 98), (2, 97)]).map Prod.fst ↔
        (2 : ℤ) ∈ ([(1, 100)] : List (ℤ × ℚ)).map Prod.fst ∨
          (2 : ℤ) ∈ ([(1, 98), (2, 97)] : List (ℤ × ℚ)).map Prod.fst) ∧
      (∀ a b, lookupKey 2 [((1 : ℤ), (100 : ℚ))] = some a →
        lookupKey 2 [((1 : ℤ), (98 : ℚ)), (2, 97)] = some b →
        lookupKey 2 (speedDiff [(1, 100)] [(1, 98), (2, 97)]) = some (some (a - b))) ∧
      ((lookupKey 2 [((1 : ℤ), (100 : ℚ))] = none ∨
          lookupKey 2 [((1 : ℤ), (98 : ℚ)), (2, 97)] = none) →
        ∀ o, lookupKey 2 (speedDiff [(1, 100)] [(1, 98), (2, 97)]) = some o → o = none) :=
  speed_diff_outer_join [(1, 100)] [(1, 98), (2, 97)] 2

lemma diffKeys_mem_comm {d1 d2 : List (ℤ × ℚ)} {k : ℤ} :
    k ∈ diffKeys d1 d2 ↔ k ∈ diffKeys d2 d1 := by
  rw [mem_diffKeys, mem_diffKeys]
  exact Or.comm

/-- Pointwise antisymmetry of the outer-join alignment, at every corner
number and for arbitrary aggregate sets. -/
lemma speedDiff_antisym (d1 d2 : List (ℤ × ℚ)) (k : ℤ) :
    lookupKey k (speedDiff d1 d2) =
      (lookupKey k (speedDiff d2 d1)).map (Option.map (fun x => -x)) := by
  rw [speedDiff_lookup, speedDiff_lookup]
  by_cases hm : k ∈ diffKeys d1 d2
  · rw [if_pos hm, if_pos (diffKeys_mem_comm.mp hm)]
    cases h1 : lookupKey k d1 with
    | none =>
      cases h2 : lookupKey k d2 with
      | none => simp
      | some b => simp
    | some a =>
      cases h2 : lookupKey k d2 with
      | none => simp
      | some b =>
        simp only [Option.map_some]
        rw [Option.map]
        norm_num
  · rw [if_neg hm, if_neg (fun hc => hm (diffKeys_mem_comm.mpr hc))]
    rfl

/-- Claim C4:  For every circuit geometry and pair of competitors whose
comparative computations both succeed, the per-corner speed differential of
`get_avg_speed_diff_drivers` for (A, B) is, corner number by corner number,
the negation of the differential for (B, A) — including agreement on which
corners carry an undefined difference. -/
theorem speed_diff_antisymmetry (tel1 tel2 : List Tick) (corners : List Corner)
    (l1 l2 : List (ℤ × Option ℚ))
    (h1 : getAvgSpeedDiffDrivers tel1 tel2 corners = .ok l1)
    (h2 : getAvgSpeedDiffDrivers tel2 tel1 corners = .ok l2) :
    ∀ k : ℤ, lookupKey k l1 = (lookupKey k l2).map (Option.map (fun x => -x)) := by
  cases hr1 : getAvgSpeedBetweenCorners tel1 corners with
  | error u => simp [getAvgSpeedDiffDrivers, hr1] at h1
  | ok r1 =>
    cases hr2 : getAvgSpeedBetweenCorners tel2 corners with
    | error u => simp [getAvgSpeedDiffDrivers, hr1, hr2] at h1
    | ok r2 =>
      simp only [getAvgSpeedDiffDrivers, hr1, hr2] at h1 h2
      cases h1
      cases h2
      intro k
      exact speedDiff_antisym (rowsToPairs r1) (rowsToPairs r2) k

/-- Witness for `speed_diff_antisymmetry` on a concrete session: the (A, B)
differential at corner 1 is +2, the (B, A) differential −2. -/
theorem speed_diff_antisymmetry_witness :
    lookupKey 1 [((1 : ℤ), some (2 : ℚ))] =
      (lookupKey 1 [((1 : ℤ), some (-2 : ℚ))]).map (Option.map (fun x => -x)) :=
  speed_diff_antisymmetry [⟨5, 100⟩, ⟨11, 0⟩] [⟨5, 98⟩, ⟨11, 0⟩] [⟨1, 10⟩] _ _
    (by norm_num [getAvgSpeedDiffDrivers, getAvgSpeedBetweenCorners, run, innerScan,
      round2, ratRound, Rat.floor, rowsToPairs, speedDiff, diffKeys, lookupKey])
    (by norm_num [getAvgSpeedDiffDrivers, getAvgSpeedBetweenCorners, run, innerScan,
      round2, ratRound, Rat.floor, rowsToPairs, speedDiff, diffKeys, lookupKey])
    1

/-! ## Claims about the strategy reconstruction -/

lemma foldlMax_mem : ∀ (xs : List ℤ) (x : ℤ), xs.foldl max x ∈ x :: xs := by
  intro xs
  induction xs with
  | nil => intro x; simp
  | cons y ys ih =>
    intro x
    rw [List.foldl_cons]
    rcases List.mem_cons.mp (ih (max x y)) with h | h
    · rw [h]
      rcases max_choice x y with hm | hm <;> rw [hm]
      · exact List.mem_cons_self _ _
      · exact List.mem_cons_of_mem _ (List.mem_cons_self _ _)
    · exact List.mem_cons_of_mem _ (List.mem_cons_of_mem _ h)

lemma le_foldlMax : ∀ (xs : List ℤ) (x : ℤ), ∀ z ∈ x :: xs, z ≤ xs.foldl max x := by
  intro xs
  induction xs with
  | nil =>
    intro x z hz
    rw [List.foldl_nil]
    rcases List.mem_cons.mp hz with h | h
    · exact le_of_eq h
    · simp at h
  | cons y ys ih =>
    intro x z hz
    rw [List.foldl_cons]
    have hx : x ≤ ys.foldl max (max x y) :=
      le_trans (le_max_left x y) (ih (max x y) _ (List.mem_cons_self _ _))
    have hy : y ≤ ys.foldl max (max x y) :=
      le_trans (le_max_right x y) (ih (max x y) _ (List.mem_cons_self _ _))
    rcases List.mem_cons.mp hz with h | h
    · exact (le_of_eq h).trans hx
    · rcases List.mem_cons.mp h with h2 | h2
      · exact (le_of_eq h2).trans hy
      · exact ih (max x y) z (List.mem_cons_of_mem _ h2)

/-- Python's `max` of a nonempty sequence is its greatest member. -/
lemma pyListMax_spec {l : List ℤ} {m : ℤ} (h : pyListMax l = .ok m) :
    m ∈ l ∧ ∀ z ∈ l, z ≤ m := by
  cases l with
  | nil => cases h
  | cons x xs =>
    rw [pyListMax] at h
    cases h
    exact ⟨foldlMax_mem xs x, le_foldlMax xs x⟩

lemma pyListMax_congr {l1 l2 : List ℤ} (hmem : ∀ z, z ∈ l1 ↔ z ∈ l2)
    {m1 m2 : ℤ} (h1 : pyListMax l1 = .ok m1) (h2 : pyListMax l2 = .ok m2) :
    m1 = m2 := by
  have s1 := pyListMax_spec h1
  have s2 := pyListMax_spec h2
  exact le_antisymm (s2.2 m1 ((hmem m1).mp s1.1)) (s1.2 m2 ((hmem m2).mpr s2.1))

/-- Claim C5:  For a competitor with at least one lap whose stint numbers all
start at 1 or above, the reported stop count of the strategy reconstruction
is exactly (maximum stint number observed) − 1, and it is nonnegative; the
`groupby` over (stint, compound) pairs does not change the maximum. -/
theorem strategy_stops (laps : List (ℤ × ℕ)) (hne : laps ≠ [])
    (hpos : ∀ p ∈ laps, 1 ≤ p.1) :
    ∃ m : ℤ, pyListMax (laps.map Prod.fst) = .ok m ∧
      m ∈ laps.map Prod.fst ∧ (∀ z ∈ laps.map Prod.fst, z ≤ m) ∧
      driverStops laps = .ok (m - 1) ∧ 0 ≤ m - 1 := by
  cases hl : laps with
  | nil => exact absurd hl hne
  | cons p rest =>
    subst hl
    obtain ⟨m, hm⟩ : ∃ m, pyListMax ((p :: rest).map Prod.fst) = .ok m :=
      ⟨_, by rw [List.map_cons, pyListMax]⟩
    have hspec := pyListMax_spec hm
    cases hd : (p :: rest).dedup with
    | nil =>
      exact absurd (List.mem_dedup.mpr (List.mem_cons_self p rest)) (by rw [hd]; simp)
    | cons q qrest =>
      obtain ⟨m', hm'⟩ : ∃ m', pyListMax (((p :: rest).dedup).map Prod.fst) = .ok m' :=
        ⟨_, by rw [hd, List.map_cons, pyListMax]⟩
      have hmm : m' = m := by
        refine pyListMax_congr ?_ hm' hm
        intro z
        constructor
        · intro hz
          obtain ⟨q', hq', rfl⟩ := List.mem_map.mp hz
          exact List.mem_map_of_mem _ (List.mem_dedup.mp hq')
        · intro hz
          obtain ⟨q', hq', rfl⟩ := List.mem_map.mp hz
          exact List.mem_map_of_mem _ (List.mem_dedup.mpr hq')
      refine ⟨m, hm, hspec.1, hspec.2, ?_, ?_⟩
      · rw [driverStops, hm', hmm]
        rfl
      · obtain ⟨q', hq', hqm⟩ := List.mem_map.mp hspec.1
        have := hpos q' hq'
        omega

/-- Witness for `strategy_stops`: the spec's example, stint numbers
`[1,1,1,2,2,3,3,3,3]`, reports 2 stops. -/
theorem strategy_stops_witness :
    (∃ m : ℤ,
        pyListMax (([(1, 0), (1, 0), (1, 0), (2, 1), (2, 1), (3, 2), (3, 2), (3, 2),
            (3, 2)] : List (ℤ × ℕ)).map Prod.fst) = .ok m ∧
          m ∈ ([(1, 0), (1, 0), (1, 0), (2, 1), (2, 1), (3, 2), (3, 2), (3, 2),
            (3, 2)] : List (ℤ × ℕ)).map Prod.fst ∧
          (∀ z ∈ ([(1, 0), (1, 0), (1, 0), (2, 1), (2, 1), (3, 2), (3, 2), (3, 2),
            (3, 2)] : List (ℤ × ℕ)).map Prod.fst, z ≤ m) ∧
          driverStops [(1, 0), (1, 0), (1, 0), (2, 1), (2, 1), (3, 2), (3, 2), (3, 2),
            (3, 2)] = .ok (m - 1) ∧ 0 ≤ m - 1) ∧
      driverStops [(1, 0), (1, 0), (1, 0), (2, 1), (2, 1), (3, 2), (3, 2), (3, 2),
        (3, 2)] = .ok 2 :=
  ⟨strategy_stops _ (by decide) (by decide), by decide⟩

/-! ## Claims about the multi-factor merge -/

lemma dedupByDriver_keys_nodup :
    ∀ (l : List StratRow) (seen : List String),
      ((dedupByDriver seen l).map StratRow.driver).Nodup ∧
        ∀ d ∈ (dedupByDriver seen l).map StratRow.driver, d ∉ seen := by
  intro l
  induction l with
  | nil => intro seen; exact ⟨List.nodup_nil, by simp [dedupByDriver]⟩
  | cons r rs ih =>
    intro seen
    by_cases h : r.driver ∈ seen
    · rw [dedupByDriver, if_pos h]
      exact ih seen
    · rw [dedupByDriver, if_neg h]
      obtain ⟨ihn, ihs⟩ := ih (r.driver :: seen)
      refine ⟨?_, ?_⟩
      · rw [List.map_cons, List.nodup_cons]
        exact ⟨fun hc => (ihs _ hc) (List.mem_cons_self _ _), ihn⟩
      · intro d hd
        rw [List.map_cons] at hd
        rcases List.mem_cons.mp hd with rfl | hd'
        · exact h
        · exact fun hc => (ihs d hd') (List.mem_cons_of_mem _ hc)

lemma dedupByDriver_length_le :
    ∀ (l : List StratRow) (seen : List String),
      (dedupByDriver seen l).length ≤ l.length := by
  intro l
  induction l with
  | nil => intro seen; exact le_refl 0
  | cons r rs ih =>
    intro seen
    rw [dedupByDriver]
    by_cases h : r.driver ∈ seen
    · rw [if_pos h, List.length_cons]
      exact le_trans (ih seen) (Nat.le_succ _)
    · rw [if_neg h, List.length_cons, List.length_cons]
      exact Nat.succ_le_succ (ih _)

lemma dedupByDriver_subset :
    ∀ (l : List StratRow) (seen : List String), ∀ r ∈ dedupByDriver seen l, r ∈ l := by
  intro l
  induction l with
  | nil => intro seen r hr; simp [dedupByDriver] at hr
  | cons x xs ih =>
    intro seen r hr
    rw [dedupByDriver] at hr
    by_cases h : x.driver ∈ seen
    · rw [if_pos h] at hr
      exact List.mem_cons_of_mem _ (ih seen r hr)
    · rw [if_neg h] at hr
      rcases List.mem_cons.mp hr with rfl | hr'
      · exact List.mem_cons_self _ _
      · exact List.mem_cons_of_mem _ (ih _ r hr')

lemma filter_key_length_le_one {α : Type} :
    ∀ (l : List (String × α)), (l.map Prod.fst).Nodup →
      ∀ k, (l.filter (fun q => decide (q.1 = k))).length ≤ 1 := by
  intro l
  induction l with
  | nil => intro _ k; simp
  | cons p rest ih =>
    intro hn k
    rw [List.map_cons, List.nodup_cons] at hn
    by_cases h : p.1 = k
    · rw [List.filter_cons_of_pos (by simp [h])]
      have hnil : rest.filter (fun q => decide (q.1 = k)) = [] := by
        rw [List.filter_eq_nil_iff]
        intro q hq hqk
        rw [decide_eq_true_eq] at hqk
        exact hn.1 (by rw [h, ← hqk]; exact List.mem_map_of_mem Prod.fst hq)
      rw [hnil]
      simp
    · rw [List.filter_cons_of_neg (by simp [h])]
      exact ih hn.2 k

lemma joinQuali_mem (quali : List (String × ℕ)) :
    ∀ (l : List StratRow) (x : StratRow × ℕ), x ∈ joinQuali quali l →
      x.1 ∈ l ∧ (x.1.driver, x.2) ∈ quali := by
  intro l
  induction l with
  | nil => intro x hx; simp [joinQuali] at hx
  | cons r rs ih =>
    intro x hx
    rw [joinQuali] at hx
    rcases List.mem_append.mp hx with hx' | hx'
    · obtain ⟨q, hq, rfl⟩ := List.mem_map.mp hx'
      obtain ⟨hq1, hq2⟩ := List.mem_filter.mp hq
      rw [decide_eq_true_eq] at hq2
      constructor
      · exact List.mem_cons_self _ _
      · show (r.driver, q.2) ∈ quali
        rw [← hq2]
        simpa using hq1
    · obtain ⟨h1, h2⟩ := ih x hx'
      exact ⟨List.mem_cons_of_mem _ h1, h2⟩

lemma joinQuali_length (quali : List (String × ℕ)) (hq : (quali.map Prod.fst).Nodup) :
    ∀ (l : List StratRow), (joinQuali quali l).length ≤ l.length := by
  intro l
  induction l with
  | nil => exact le_refl 0
  | cons r rs ih =>
    rw [joinQuali, List.length_append, List.length_map, List.length_cons]
    have h1 := filter_key_length_le_one quali hq r.driver
    omega

lemma joinQuali_keys_sublist (quali : List (String × ℕ)) (hq : (quali.map Prod.fst).Nodup) :
    ∀ (l : List StratRow),
      ((joinQuali quali l).map (fun x => x.1.driver)).Sublist (l.map StratRow.driver) := by
  intro l
  induction l with
  | nil => simp [joinQuali]
  | cons r rs ih =>
    rw [joinQuali, List.map_append, List.map_cons]
    cases hf : quali.filter (fun q => decide (q.1 = r.driver)) with
    | nil =>
      simp only [List.map_nil, List.nil_append]
      exact List.Sublist.cons _ ih
    | cons q qs =>
      have hlen := filter_key_length_le_one quali hq r.driver
      rw [hf] at hlen
      have hqs : qs = [] := by
        cases qs with
        | nil => rfl
        | cons a as => simp at hlen
      subst hqs
      simp only [List.map_map, List.map_cons, List.map_nil, Function.comp_apply,
        List.singleton_append]
      exact List.Sublist.cons₂ _ ih

lemma joinRace_mem (race : List (String × ℕ)) :
    ∀ (l : List (StratRow × ℕ)) (m : MergedRow), m ∈ joinRace race l →
      ∃ rq ∈ l, m.driver = rq.1.driver ∧ m.qualiPos = rq.2 ∧
        (m.driver, m.finishPos) ∈ race := by
  intro l
  induction l with
  | nil => intro m hm; simp [joinRace] at hm
  | cons rq rs ih =>
    intro m hm
    obtain ⟨r, qp⟩ := rq
    rw [joinRace] at hm
    rcases List.mem_append.mp hm with hm' | hm'
    · obtain ⟨q, hq, rfl⟩ := List.mem_map.mp hm'
      obtain ⟨hq1, hq2⟩ := List.mem_filter.mp hq
      rw [decide_eq_true_eq] at hq2
      refine ⟨(r, qp), List.mem_cons_self _ _, rfl, rfl, ?_⟩
      show (r.driver, q.2) ∈ race
      rw [← hq2]
      simpa using hq1
    · obtain ⟨rq', hrq', h1, h2, h3⟩ := ih m hm'
      exact ⟨rq', List.mem_cons_of_mem _ hrq', h1, h2, h3⟩

lemma joinRace_length (race : List (String × ℕ)) (hr : (race.map Prod.fst).Nodup) :
    ∀ (l : List (StratRow × ℕ)), (joinRace race l).length ≤ l.length := by
  intro l
  induction l with
  | nil => exact le_refl 0
  | cons rq rs ih =>
    obtain ⟨r, qp⟩ := rq
    rw [joinRace, List.length_append, List.length_map, List.length_cons]
    have h1 := filter_key_length_le_one race hr r.driver
    omega

lemma joinRace_keys_sublist (race : List (String × ℕ)) (hr : (race.map Prod.fst).Nodup) :
    ∀ (l : List (StratRow × ℕ)),
      ((joinRace race l).map MergedRow.driver).Sublist (l.map (fun x => x.1.driver)) := by
  intro l
  induction l with
  | nil => simp [joinRace]
  | cons rq rs ih =>
    obtain ⟨r, qp⟩ := rq
    rw [joinRace, List.map_append, List.map_cons]
    cases hf : race.filter (fun q => decide (q.1 = r.driver)) with
    | nil =>
      simp only [List.map_nil, List.nil_append]
      exact List.Sublist.cons _ ih
    | cons q qs =>
      have hlen := filter_key_length_le_one race hr r.driver
      rw [hf] at hlen
      have hqs : qs = [] := by
        cases qs with
        | nil => rfl
        | cons a as => simp at hlen
      subst hqs
      simp only [List.map_map, List.map_cons, List.map_nil, Function.comp_apply,
        List.singleton_append]
      exact List.Sublist.cons₂ _ ih

lemma insertByQuali_perm (r : MergedRow) :
    ∀ l : List MergedRow, (insertByQuali r l).Perm (r :: l) := by
  intro l
  induction l with
  | nil => exact List.Perm.refl _
  | cons x xs ih =>
    rw [insertByQuali]
    by_cases h : r.qualiPos ≤ x.qualiPos
    · rw [if_pos h]
    · rw [if_neg h]
      exact (List.Perm.cons x ih).trans (List.Perm.swap r x xs)

lemma sortByQuali_perm : ∀ l : List MergedRow, (sortByQuali l).Perm l := by
  intro l
  induction l with
  | nil => exact List.Perm.refl _
  | cons x xs ih =>
    rw [sortByQuali]
    exact (insertByQuali_perm x (sortByQuali xs)).trans (List.Perm.cons x ih)

lemma insertByQuali_sorted (r : MergedRow) :
    ∀ l : List MergedRow, l.Pairwise (fun a b => a.qualiPos ≤ b.qualiPos) →
      (insertByQuali r l).Pairwise (fun a b => a.qualiPos ≤ b.qualiPos) := by
  intro l
  induction l with
  | nil => intro _; simp [insertByQuali]
  | cons x xs ih =>
    intro hp
    rw [List.pairwise_cons] at hp
    obtain ⟨hx, hxs⟩ := hp
    rw [insertByQuali]
    by_cases h : r.qualiPos ≤ x.qualiPos
    · rw [if_pos h, List.pairwise_cons]
      refine ⟨?_, List.pairwise_cons.mpr ⟨hx, hxs⟩⟩
      intro b hb
      rcases List.mem_cons.mp hb with rfl | hb'
      · exact h
      · exact le_trans h (hx b hb')
    · rw [if_neg h, List.pairwise_cons]
      refine ⟨?_, ih hxs⟩
      intro b hb
      have hmem : b ∈ r :: xs := (insertByQuali_perm r xs).mem_iff.mp hb
      rcases List.mem_cons.mp hmem with rfl | hb'
      · exact le_of_not_le h
      · exact hx b hb'

lemma sortByQuali_sorted :
    ∀ l : List MergedRow,
      (sortByQuali l).Pairwise (fun a b => a.qualiPos ≤ b.qualiPos) := by
  intro l
  induction l with
  | nil => simp [sortByQuali]
  | cons x xs ih => exact insertByQuali_sorted x (sortByQuali xs) ih

/-- Claim C6:  With duplicate-free qualifying and race classifications, the
multi-factor merge obeys inner-join semantics: every output competitor
appears in the (deduplicated) strategy rows, in the qualifying ranking and
in the race ranking; the row count is bounded by each of the three input
sizes; there is at most one row per competitor; and the output is sorted by
qualifying position ascending. -/
theorem multi_factor_merge (strat : List StratRow) (quali race : List (String × ℕ))
    (hq : (quali.map Prod.fst).Nodup) (hr : (race.map Prod.fst).Nodup) :
    (∀ m ∈ parallelCoordinatesDataset strat quali race,
        m.driver ∈ strat.map StratRow.driver ∧
          m.driver ∈ quali.map Prod.fst ∧ m.driver ∈ race.map Prod.fst) ∧
      (parallelCoordinatesDataset strat quali race).length ≤ strat.length ∧
      (parallelCoordinatesDataset strat quali race).length ≤ quali.length ∧
      (parallelCoordinatesDataset strat quali race).length ≤ race.length ∧
      ((parallelCoordinatesDataset strat quali race).map MergedRow.driver).Nodup ∧
      (parallelCoordinatesDataset strat quali race).Pairwise
        (fun a b => a.qualiPos ≤ b.qualiPos) := by
  have hperm :=
    sortByQuali_perm (joinRace race (joinQuali quali (dedupByDriver [] strat)))
  have hmemall : ∀ m ∈ joinRace race (joinQuali quali (dedupByDriver [] strat)),
      m.driver ∈ strat.map StratRow.driver ∧
        m.driver ∈ quali.map Prod.fst ∧ m.driver ∈ race.map Prod.fst := by
    intro m hm
    obtain ⟨rq, hrq, hdrv, hqp, hrace⟩ := joinRace_mem race _ m hm
    obtain ⟨hst, hquali⟩ := joinQuali_mem quali _ rq hrq
    refine ⟨?_, ?_, ?_⟩
    · rw [hdrv]
      exact List.mem_map_of_mem _ (dedupByDriver_subset strat [] rq.1 hst)
    · rw [hdrv]
      exact List.mem_map_of_mem Prod.fst hquali
    · exact List.mem_map_of_mem Prod.fst hrace
  have hd2n := (dedupByDriver_keys_nodup strat []).1
  have hj1k := joinQuali_keys_sublist quali hq (dedupByDriver [] strat)
  have hj2k := joinRace_keys_sublist race hr (joinQuali quali (dedupByDriver [] strat))
  have hj2nodup : ((joinRace race (joinQuali quali (dedupByDriver [] strat))).map
      MergedRow.driver).Nodup := hd2n.sublist (hj2k.trans hj1k)
  have hlen2 := joinRace_length race hr (joinQuali quali (dedupByDriver [] strat))
  have hlen1 := joinQuali_length quali hq (dedupByDriver [] strat)
  have hlend := dedupByDriver_length_le strat []
  have houtlen := hperm.length_eq
  have hsubq : ((joinRace race (joinQuali quali (dedupByDriver [] strat))).map
      MergedRow.driver) ⊆ quali.map Prod.fst := by
    intro d hd
    obtain ⟨m, hm, rfl⟩ := List.mem_map.mp hd
    exact (hmemall m hm).2.1
  have hsubr : ((joinRace race (joinQuali quali (dedupByDriver [] strat))).map
      MergedRow.driver) ⊆ race.map Prod.fst := by
    intro d hd
    obtain ⟨m, hm, rfl⟩ := List.mem_map.mp hd
    exact (hmemall m hm).2.2
  have hlq : (joinRace race (joinQuali quali (dedupByDriver [] strat))).length ≤
      quali.length := by
    have h1 := (List.subperm_of_subset hj2nodup hsubq).length_le
    rw [List.length_map, List.length_map] at h1
    exact h1
  have hlr : (joinRace race (joinQuali quali (dedupByDriver [] strat))).length ≤
      race.length := by
    have h1 := (List.subperm_of_subset hj2nodup hsubr).length_le
    rw [List.length_map, List.length_map] at h1
    exact h1
  refine ⟨?_, ?_, ?_, ?_, ?_, ?_⟩
  · intro m hm
    exact hmemall m (hperm.mem_iff.mp hm)
  · rw [show parallelCoordinatesDataset strat quali race =
      sortByQuali (joinRace race (joinQuali quali (dedupByDriver [] strat))) from rfl,
      houtlen]
    omega
  · rw [show parallelCoordinatesDataset strat quali race =
      sortByQuali (joinRace race (joinQuali quali (dedupByDriver [] strat))) from rfl,
      houtlen]
    exact hlq
  · rw [show parallelCoordinatesDataset strat quali race =
      sortByQuali (joinRace race (joinQuali quali (dedupByDriver [] strat))) from rfl,
      houtlen]
    exact hlr
  · exact ((hperm.map MergedRow.driver).nodup_iff).mpr hj2nodup
  · exact sortByQuali_sorted _

/-- Witness for `multi_factor_merge` on a concrete two-driver event. -/
theorem multi_factor_merge_witness :
    parallelCoordinatesDataset
        [⟨"VER", 2, [0, 1]⟩, ⟨"HAM", 1, [0]⟩]
        [("VER", 1), ("HAM", 2)] [("HAM", 1), ("VER", 2)] =
      [⟨"VER", 2, [0, 1], 1, 2⟩, ⟨"HAM", 1, [0], 2, 1⟩] ∧
    ((∀ m ∈ parallelCoordinatesDataset [⟨"VER", 2, [0, 1]⟩, ⟨"HAM", 1, [0]⟩]
          [("VER", 1), ("HAM", 2)] [("HAM", 1), ("VER", 2)],
        m.driver ∈ ([⟨"VER", 2, [0, 1]⟩, ⟨"HAM", 1, [0]⟩] : List StratRow).map
            StratRow.driver ∧
          m.driver ∈ ([("VER", 1), ("HAM", 2)] : List (String × ℕ)).map Prod.fst ∧
          m.driver ∈ ([("HAM", 1), ("VER", 2)] : List (String × ℕ)).map Prod.fst) ∧
      (parallelCoordinatesDataset [⟨"VER", 2, [0, 1]⟩, ⟨"HAM", 1, [0]⟩]
          [("VER", 1), ("HAM", 2)] [("HAM", 1), ("VER", 2)]).length ≤ 2 ∧
      (parallelCoordinatesDataset [⟨"VER", 2, [0, 1]⟩, ⟨"HAM", 1, [0]⟩]
          [("VER", 1), ("HAM", 2)] [("HAM", 1), ("VER", 2)]).length ≤ 2 ∧
      (parallelCoordinatesDataset [⟨"VER", 2, [0, 1]⟩, ⟨"HAM", 1, [0]⟩]
          [("VER", 1), ("HAM", 2)] [("HAM", 1), ("VER", 2)]).length ≤ 2 ∧
      ((parallelCoordinatesDataset [⟨"VER", 2, [0, 1]⟩, ⟨"HAM", 1, [0]⟩]
          [("VER", 1), ("HAM", 2)] [("HAM", 1), ("VER", 2)]).map MergedRow.driver).Nodup ∧
      (parallelCoordinatesDataset [⟨"VER", 2, [0, 1]⟩, ⟨"HAM", 1, [0]⟩]
          [("VER", 1), ("HAM", 2)] [("HAM", 1), ("VER", 2)]).Pairwise
        (fun a b => a.qualiPos ≤ b.qualiPos)) :=
  ⟨by decide,
   multi_factor_merge [⟨"VER", 2, [0, 1]⟩, ⟨"HAM", 1, [0]⟩]
     [("VER", 1), ("HAM", 2)] [("HAM", 1), ("VER", 2)] (by decide) (by decide)⟩

/-! ## Claim about the historical aggregations -/

lemma filterYears_eq_nil {rows : List (ℤ × String)} {s e : ℤ}
    (h : ∀ r ∈ rows, ¬(s ≤ r.1 ∧ r.1 ≤ e)) : filterYears rows s e = [] := by
  rw [filterYears, List.filter_eq_nil_iff]
  intro r hr
  simp only [decide_eq_true_eq]
  exact h r hr

lemma insertByCountDesc_ne_nil (p : String × ℕ) :
    ∀ l : List (String × ℕ), insertByCountDesc p l ≠ [] := by
  intro l
  cases l with
  | nil => simp [insertByCountDesc]
  | cons x xs =>
    rw [insertByCountDesc]
    by_cases h : x.2 ≤ p.2
    · rw [if_pos h]; simp
    · rw [if_neg h]; simp

lemma sortByCountDesc_eq_nil_iff :
    ∀ l : List (String × ℕ), (sortByCountDesc l = [] ↔ l = []) := by
  intro l
  cases l with
  | nil => simp [sortByCountDesc]
  | cons x xs =>
    rw [sortByCountDesc]
    constructor
    · intro h
      exact absurd h (insertByCountDesc_ne_nil x _)
    · intro h
      exact (List.cons_ne_nil x xs h).elim

lemma firstOccs_eq_nil_iff :
    ∀ (l : List String) (seen : List String),
      (firstOccs seen l = [] ↔ ∀ x ∈ l, x ∈ seen) := by
  intro l
  induction l with
  | nil => intro seen; simp [firstOccs]
  | cons x xs ih =>
    intro seen
    rw [firstOccs]
    by_cases h : x ∈ seen
    · rw [if_pos h, ih]
      constructor
      · intro ha y hy
        rcases List.mem_cons.mp hy with rfl | hy'
        · exact h
        · exact ha y hy'
      · intro ha y hy
        exact ha y (List.mem_cons_of_mem _ hy)
    · rw [if_neg h]
      constructor
      · intro hc
        exact absurd hc (List.cons_ne_nil _ _)
      · intro ha
        exact absurd (ha x (List.mem_cons_self _ _)) h

lemma valueCounts_eq_nil_iff (l : List String) : (valueCounts l = [] ↔ l = []) := by
  rw [valueCounts, sortByCountDesc_eq_nil_iff, List.map_eq_nil_iff, firstOccs_eq_nil_iff]
  constructor
  · intro h
    cases l with
    | nil => rfl
    | cons x xs => exact absurd (h x (List.mem_cons_self _ _)) (List.not_mem_nil x)
  · intro h
    subst h
    simp

/-- Claim C7, counterexample:  On a year range matching zero snapshot rows
the country aggregation does not return an empty result set: the row-wise
enrichment loop never runs, the `ISO` column is never created, and
`dropna(subset=['ISO'])` raises `KeyError` — the function aborts instead
of returning empty. -/
theorem historical_empty_range_cex :
    getCountryCountsISO (fun _ => some "FRA") [(1994, "France")] 2000 2010 =
      .error () := by
  decide

/-- Claim C7, amended:  On a year range matching zero snapshot rows the
team-win aggregation of `plot_race_wins_per_team` returns an empty result
set without error, but `get_country_counts_ISO` raises `KeyError` (its
`dropna(subset=['ISO'])` runs with no `ISO` column): the country
aggregation errors exactly when the year filter keeps no row. -/
theorem historical_empty_range_behavior (iso : String → Option String)
    (color : String → Option String)
    (calRows winRows : List (ℤ × String)) (s e : ℤ)
    (hwin : ∀ r ∈ winRows, ¬(s ≤ r.1 ∧ r.1 ≤ e)) :
    (getCountryCountsISO iso calRows s e = .error () ↔ filterYears calRows s e = []) ∧
      raceWinsPerTeam color winRows s e = [] := by
  constructor
  · rw [getCountryCountsISO]
    by_cases h : (valueCounts ((filterYears calRows s e).map Prod.snd)).isEmpty
    · rw [if_pos h]
      have hfil : filterYears calRows s e = [] := by
        have h1 := List.isEmpty_iff.mp h
        exact List.map_eq_nil_iff.mp ((valueCounts_eq_nil_iff _).mp h1)
      simp [hfil]
    · rw [if_neg h]
      have hne : filterYears calRows s e ≠ [] := by
        intro hc
        apply h
        rw [List.isEmpty_iff, valueCounts_eq_nil_iff, hc]
        rfl
      constructor
      · intro hc
        simp at hc
      · intro hc
        exact absurd hc hne
  · rw [raceWinsPerTeam, filterYears_eq_nil hwin]
    rfl

/-- Witness for `historical_empty_range_behavior`: a 2000-2010 query
against snapshots holding only 1995 rows — the country aggregation raises,
the team-win aggregation yields the empty set. -/
theorem historical_empty_range_behavior_witness :
    ((getCountryCountsISO (fun _ => some "FRA") [(1995, "France")] 2000 2010 =
        .error () ↔ filterYears [(1995, "France")] 2000 2010 = []) ∧
      raceWinsPerTeam (fun _ => none) [(1995, "Ferrari")] 2000 2010 = []) ∧
      getCountryCountsISO (fun _ => some "FRA") [(1995, "France")] 2000 2010 =
        .error () :=
  ⟨historical_empty_range_behavior (fun _ => some "FRA") (fun _ => none)
      [(1995, "France")] [(1995, "Ferrari")] 2000 2010 (by decide),
    by decide⟩

/-! ## Claim about the lap-time conversion -/

/-- Claim C10, counterexample:  The conversion is not exactly "the input
reduced modulo one hour": `strftime("%M:%S.%f")[:-3]` also truncates to
whole milliseconds, so a duration of 1500 µs converts to 1000 µs while
1500 mod one hour is 1500 µs. -/
theorem timedelta_conversion_cex :
    convertTimedeltaToDatetime 1500 = 1000 ∧
      (1500 : ℤ) % 3600000000 = 1500 ∧ (1000 : ℤ) ≠ 1500 :=
  ⟨by decide, by decide, by decide⟩

/-- Claim C10, amended:  `convert_timedelta_to_datetime` keeps only the
minutes, seconds and milliseconds components: the result is the input
duration reduced modulo one hour and then truncated to whole milliseconds;
whole hours (and days) are silently discarded — adding one hour leaves the
result unchanged — and on millisecond-aligned inputs the result is exactly
the input modulo one hour. -/
theorem timedelta_conversion (t : ℤ) :
    convertTimedeltaToDatetime t = 1000 * ((t % 3600000000) / 1000) ∧
      convertTimedeltaToDatetime (t + 3600000000) = convertTimedeltaToDatetime t ∧
      (t % 1000 = 0 → convertTimedeltaToDatetime t = t % 3600000000) := by
  refine ⟨?_, ?_, ?_⟩
  · rw [convertTimedeltaToDatetime]
    omega
  · rw [convertTimedeltaToDatetime, convertTimedeltaToDatetime]
    omega
  · intro h
    rw [convertTimedeltaToDatetime]
    omega

/-- Witness for `timedelta_conversion` at a lap time of one hour and two
milliseconds. -/
theorem timedelta_conversion_witness :
    convertTimedeltaToDatetime 3600002000 =
        1000 * (((3600002000 : ℤ) % 3600000000) / 1000) ∧
      convertTimedeltaToDatetime (3600002000 + 3600000000) =
        convertTimedeltaToDatetime 3600002000 ∧
      ((3600002000 : ℤ) % 1000 = 0 →
        convertTimedeltaToDatetime 3600002000 = (3600002000 : ℤ) % 3600000000) :=
  timedelta_conversion 3600002000
